import Mathlib

/-! # Employee Management System: record store, credential store and validation

A shallow embedding of `Employee_Management_System.cpp`.

* Objects are Lean structures; a member function takes the object it is called on
  and returns the new object.
* `int` values are `Int`.  The modelled code only compares and copies them, apart
  from `year % 4` in `validDate`, which is the truncating remainder `Int.tmod`.
* `float` values are `CFloat`: a rational number, an infinity or NaN.  The modelled
  code only compares them with 0 and copies them.
* `cin` is, for the extractions of one call, the list of what they meet: a number or
  characters that are no number; the list ends where the input ends.
* `std::string` and `char` buffers are `List Char`.
* `EMPLOYEE.DAT` and `temp.dat` are read and written in blocks of
  `sizeof(Employee)` bytes, so a file is the list of its whole blocks, each block
  being the `Employee` object it is read into, plus a flag telling whether fewer
  than `sizeof(Employee)` further bytes follow the last whole block.
  `userData.txt` is a list of characters.  Streams are taken to deliver the
  stored bytes as they are.
* A stream carries its `eofbit` and `failbit`, and a `while` loop of the source
  is a function with a fuel argument: it returns `none` when the fuel is used up
  before the loop is left.
-/

/-! ## Floats and console input -/

/-- A `float` value: a number, an infinity, or NaN. -/
inductive CFloat where
  | finite (q : Rat)
  | posInf
  | negInf
  | nan
  deriving DecidableEq

namespace CFloat

/-- The comparison `v > 0`. -/
def gt0 : CFloat → Bool
  | finite q => 0 < q
  | posInf => true
  | _ => false

/-- The comparison `v < 0`. -/
def lt0 : CFloat → Bool
  | finite q => q < 0
  | negInf => true
  | _ => false

/-- The comparison `v >= 0`. -/
def ge0 : CFloat → Bool
  | finite q => 0 ≤ q
  | posInf => true
  | _ => false

end CFloat

/-- The stream `cin` as the extractions `cin >> v` of numbers of type `α` see it. -/
structure Cin (α : Type) where
  /-- What the extractions to come meet, one entry for each: `some x` when the
  characters typed are the number `x`, `none` when they are no number; after the last
  entry the input is at its end. -/
  pending : List (Option α)
  failbit : Bool
  deriving DecidableEq

/-- The extraction `cin >> v` of a number; `inj` turns the number typed into a value of the
type of `v` and `zero` is the 0 of that type.  On a stream that has failed, and at the end
of the input, nothing is stored in `v`, and `failbit` is set; characters that are
no number store 0 in `v` and set `failbit`. -/
def Cin.extract {α β : Type} (inj : α → β) (zero : β) (cin : Cin α) (v : β) : Cin α × β :=
  if cin.failbit then (cin, v)
  else
    match cin.pending with
    | [] => ({ pending := [], failbit := true }, v)
    | none :: rest => ({ pending := rest, failbit := true }, zero)
    | some x :: rest => ({ pending := rest, failbit := false }, inj x)

/-! ## Income -/

/-- The class `Income`: six `float` members. -/
structure Income where
  baseSalary : CFloat
  loan : CFloat
  bonus : CFloat
  tax : CFloat
  medicalAllowance : CFloat
  travelAllowance : CFloat
  deriving DecidableEq

namespace Income

/-- The constructor `Income::Income()`: every component is set to zero. -/
def new : Income :=
  { baseSalary := CFloat.finite 0, loan := CFloat.finite 0, bonus := CFloat.finite 0,
    tax := CFloat.finite 0, medicalAllowance := CFloat.finite 0,
    travelAllowance := CFloat.finite 0 }

/-- The loop in the `else` branch of the six setters, for the parameter `v`:
`do { cin >> v; } while (v < 0);`. -/
def reenter : Nat → Cin Rat → CFloat → Option (Cin Rat × CFloat)
  | 0, _, _ => none
  | fuel + 1, cin, v =>
    let (cin1, v1) := cin.extract CFloat.finite (CFloat.finite 0) v
    if v1.lt0 then reenter fuel cin1 v1 else some (cin1, v1)

/-- The body shared by the six setters, for the parameter `v`: the value assigned to
the member is `v` itself when `v > 0`, and otherwise what `v` holds after the loop. -/
def stored (fuel : Nat) (v : CFloat) (cin : Cin Rat) : Option (Cin Rat × CFloat) :=
  if v.gt0 then some (cin, v) else reenter fuel cin v

def SetBaseSalary (self : Income) (fuel : Nat) (baseSalary : CFloat) (cin : Cin Rat) :
    Option (Income × Cin Rat) :=
  match stored fuel baseSalary cin with
  | none => none
  | some (cin1, v) => some ({ self with baseSalary := v }, cin1)

def SetLoan (self : Income) (fuel : Nat) (loan : CFloat) (cin : Cin Rat) :
    Option (Income × Cin Rat) :=
  match stored fuel loan cin with
  | none => none
  | some (cin1, v) => some ({ self with loan := v }, cin1)

def SetBonus (self : Income) (fuel : Nat) (bonus : CFloat) (cin : Cin Rat) :
    Option (Income × Cin Rat) :=
  match stored fuel bonus cin with
  | none => none
  | some (cin1, v) => some ({ self with bonus := v }, cin1)

def SetTax (self : Income) (fuel : Nat) (tax : CFloat) (cin : Cin Rat) :
    Option (Income × Cin Rat) :=
  match stored fuel tax cin with
  | none => none
  | some (cin1, v) => some ({ self with tax := v }, cin1)

def SetMedicalAllowance (self : Income) (fuel : Nat) (medicalAllowance : CFloat)
    (cin : Cin Rat) : Option (Income × Cin Rat) :=
  match stored fuel medicalAllowance cin with
  | none => none
  | some (cin1, v) => some ({ self with medicalAllowance := v }, cin1)

def SetTravelAllowance (self : Income) (fuel : Nat) (travelAllowance : CFloat)
    (cin : Cin Rat) : Option (Income × Cin Rat) :=
  match stored fuel travelAllowance cin with
  | none => none
  | some (cin1, v) => some ({ self with travelAllowance := v }, cin1)

end Income

/-! ## Employee -/

/-- The class `Employee`.  The four `char` arrays (`name[26]`, `address[31]`,
`phone[11]`, `designation[16]`) are lists of characters. -/
structure Employee where
  employeeCode : Int
  grade : Int
  dd : Int
  mm : Int
  yy : Int
  name : List Char
  address : List Char
  phone : List Char
  designation : List Char
  income : Income
  deriving DecidableEq

/-- The terminating character of a C string. -/
def NUL : Char := Char.ofNat 0

/-- The string a `const char*` converts to: the characters before the first `NUL`. -/
def cstring (buf : List Char) : List Char :=
  buf.takeWhile (fun c => c != NUL)

/-- The body shared by `SetName`, `SetAddress`, `SetPhone` and `SetDesignation`,
with the limit (25, 30, 10, 15) as `limit`:
`length = (s.size() < limit ? s.size() : limit); s.copy(buf, length); buf[length] = 0`.
The first `length` cells of the array get the first `length` characters of `s`,
cell `length` gets `NUL`, the cells behind it keep what they held. -/
def setBuffer (limit : Nat) (s : List Char) (buf : List Char) : List Char :=
  let length := if s.length < limit then s.length else limit
  s.take length ++ NUL :: buf.drop (length + 1)

namespace Employee

def GetEmployeeCode (self : Employee) : Int := self.employeeCode

/-- The loop in the `else` branch of `SetEmployeeCode` and `SetGrade`, for the
parameter `v`: `do { cin >> v; } while (v < 0);`. -/
def reenter : Nat → Cin Int → Int → Option (Cin Int × Int)
  | 0, _, _ => none
  | fuel + 1, cin, v =>
    let (cin1, v1) := cin.extract id 0 v
    if v1 < 0 then reenter fuel cin1 v1 else some (cin1, v1)

/-- The body shared by `SetEmployeeCode` and `SetGrade`, for the parameter `v`: the value
assigned to the member is `v` itself when `v > 0`, and otherwise what `v` holds after
the loop. -/
def stored (fuel : Nat) (v : Int) (cin : Cin Int) : Option (Cin Int × Int) :=
  if v > 0 then some (cin, v) else reenter fuel cin v

def SetEmployeeCode (self : Employee) (fuel : Nat) (employeeCode : Int) (cin : Cin Int) :
    Option (Employee × Cin Int) :=
  match stored fuel employeeCode cin with
  | none => none
  | some (cin1, v) => some ({ self with employeeCode := v }, cin1)

def GetGrade (self : Employee) : Int := self.grade

def SetGrade (self : Employee) (fuel : Nat) (grade : Int) (cin : Cin Int) :
    Option (Employee × Cin Int) :=
  match stored fuel grade cin with
  | none => none
  | some (cin1, v) => some ({ self with grade := v }, cin1)

def GetName (self : Employee) : List Char := cstring self.name

def SetName (self : Employee) (Name : List Char) : Employee :=
  { self with name := setBuffer 25 Name self.name }

def GetAddress (self : Employee) : List Char := cstring self.address

def SetAddress (self : Employee) (Address : List Char) : Employee :=
  { self with address := setBuffer 30 Address self.address }

def GetPhone (self : Employee) : List Char := cstring self.phone

def SetPhone (self : Employee) (Phone : List Char) : Employee :=
  { self with phone := setBuffer 10 Phone self.phone }

def GetDesignation (self : Employee) : List Char := cstring self.designation

def SetDesignation (self : Employee) (Designation : List Char) : Employee :=
  { self with designation := setBuffer 15 Designation self.designation }

/-- The function `Employee::validDate`, statement by statement: `valid` starts at 1
and each of the three `if` statements may set it to 0. -/
def validDate (day month year : Int) : Int :=
  let valid : Int := 1
  let valid := if month < 1 ∨ month > 12 then 0 else valid
  let valid :=
    if day < 1 ∨ day > 31 then 0
    else if (Int.tmod year 4 ≠ 0 ∧ month = 2 ∧ day > 28) ∨
        (Int.tmod year 4 = 0 ∧ month = 2 ∧ day > 29) then 0
    else if (month = 4 ∨ month = 6 ∨ month = 9 ∨ month = 11) ∧ day > 30 then 0
    else valid
  let valid := if year < 1950 ∨ year > 2004 then 0 else valid
  valid

end Employee

/-! ## Binary files and streams -/

/-- What a binary file holds, in blocks of `sizeof(Employee)` bytes. -/
structure FileData where
  /-- The whole blocks, in file order. -/
  records : List Employee
  /-- Whether the last whole block is followed by further bytes, fewer than
  `sizeof(Employee)` of them. -/
  ragged : Bool
  deriving DecidableEq

/-- A file that is a sequence of whole records. -/
def FileData.whole (records : List Employee) : FileData :=
  { records := records, ragged := false }

/-- The two files `deleteRecord` works on; `none` is a file that does not exist. -/
structure Disk where
  employeeDat : Option FileData
  tempDat : Option FileData
  deriving DecidableEq

/-- An input stream on a binary file, with its read position at a block boundary. -/
structure IFStream where
  /-- The whole blocks from the read position on. -/
  pending : List Employee
  /-- Whether bytes that do not fill a block follow the last one of them. -/
  ragged : Bool
  eofbit : Bool
  failbit : Bool
  deriving DecidableEq

namespace IFStream

/-- The call `open(name, ios::in)` on a stream that is not open.  A file that does not exist makes
the call fail, which sets `failbit`; a successful call clears the state and puts
the read position at the start, where the `seekg(0, ios::beg)` that follows it in
the source leaves it. -/
def openIn : Option FileData → IFStream
  | none => { pending := [], ragged := false, eofbit := false, failbit := true }
  | some f => { pending := f.records, ragged := f.ragged, eofbit := false, failbit := false }

def eof (s : IFStream) : Bool := s.eofbit

def fail (s : IFStream) : Bool := s.failbit

/-- The call `read((char *)&obj, sizeof(Employee))`.  A stream that is not good only
gets `failbit` and leaves `obj` alone.  Otherwise the next whole block is
copied into `obj`; when fewer bytes than a block are left, they are consumed and
`eofbit` and `failbit` are set.  In this last case the bytes consumed overwrite the
start of `obj`; no caller looks at `obj` before `eof()` has ended its loop, and the
model returns `obj` as it was. -/
def read (s : IFStream) (obj : Employee) : IFStream × Employee :=
  if s.eofbit || s.failbit then ({ s with failbit := true }, obj)
  else
    match s.pending with
    | r :: rest => ({ s with pending := rest }, r)
    | [] => ({ pending := [], ragged := false, eofbit := true, failbit := true }, obj)

end IFStream

/-! ## Admin -/

/-- What the store operations print, prompts left out. -/
inductive Printed where
  /-- A call `Output(cout, obj)`. -/
  | record (obj : Employee)
  /-- The line "Record Not Found. Please check the Employee Code." -/
  | recordNotFound
  /-- The line "No employee records found." -/
  | noRecords
  deriving DecidableEq

/-- The records printed, in the order of printing. -/
def printedRecords : List Printed → List Employee
  | [] => []
  | Printed.record obj :: rest => obj :: printedRecords rest
  | _ :: rest => printedRecords rest

namespace Admin

/-- The function `Admin::addEmployee`, after `obj.Get_Input()` has filled `obj`: the
file is opened with `ios::out | ios::app`, which creates it when it does not exist, and
the block of `obj` is written at its end.  The store is given as its sequence of
whole records (`none`: no file); the result is the sequence the file holds then. -/
def addEmployee (obj : Employee) (store : Option (List Employee)) : List Employee :=
  match store with
  | none => [obj]
  | some records => records ++ [obj]

/-- The first loop of `deleteRecord`:
`while (!file.eof()) { file.read(this); if (file.eof()) break;
if (this->GetEmployeeCode() != ecode) temp.write(this); }`.
`temp` is the list of blocks written to `temp.dat` so far. -/
def deleteCopyLoop : Nat → Int → IFStream → Employee → List Employee →
    Option (IFStream × Employee × List Employee)
  | 0, _, _, _, _ => none
  | fuel + 1, ecode, file, self, temp =>
    if file.eof then some (file, self, temp)
    else
      let (file1, self1) := file.read self
      if file1.eof then some (file1, self1, temp)
      else if self1.GetEmployeeCode ≠ ecode then
        deleteCopyLoop fuel ecode file1 self1 (temp ++ [self1])
      else deleteCopyLoop fuel ecode file1 self1 temp

/-- The second loop of `deleteRecord`:
`while (!temp.eof()) { temp.read(this); if (temp.eof()) break; file.write(this); }`.
`file` is the list of blocks written to `EMPLOYEE.DAT` so far. -/
def deleteRestoreLoop : Nat → IFStream → Employee → List Employee →
    Option (IFStream × Employee × List Employee)
  | 0, _, _, _ => none
  | fuel + 1, temp, self, file =>
    if temp.eof then some (temp, self, file)
    else
      let (temp1, self1) := temp.read self
      if temp1.eof then some (temp1, self1, file)
      else deleteRestoreLoop fuel temp1 self1 (file ++ [self1])

/-- The function `Admin::deleteRecord`, with the code read from the console as
`ecode`.  `self` is the `Employee` part of the `Admin` object, which both loops
read into.  `temp.dat` is opened with `ios::out`, so it is created or emptied, and
after the first loop it holds what the loop wrote; `EMPLOYEE.DAT` is then opened
with `ios::out` in the same way and gets what the second loop writes.  Both streams
are closed and opened again between the loops, and a successful `open` clears the
state the first loop left.  The result is `none` when a loop is not left within
`fuel` rounds. -/
def deleteRecord (fuel : Nat) (self : Employee) (ecode : Int) (disk : Disk) :
    Option (Disk × Employee) :=
  let file := IFStream.openIn disk.employeeDat
  match deleteCopyLoop fuel ecode file self [] with
  | none => none
  | some (_, self1, written) =>
    let tempDat := FileData.whole written
    let temp := IFStream.openIn (some tempDat)
    match deleteRestoreLoop fuel temp self1 [] with
    | none => none
    | some (_, self2, restored) =>
      some ({ employeeDat := some (FileData.whole restored), tempDat := some tempDat }, self2)

/-- The loop of `searchRecord`:
`while (!file.eof()) { if (obj.GetEmployeeCode() == ecode) { Output(cout, obj); break; }
file.read(&obj); }`. -/
def searchLoop : Nat → Int → IFStream → Employee → Option (IFStream × List Printed)
  | 0, _, _, _ => none
  | fuel + 1, ecode, file, obj =>
    if file.eof then some (file, [])
    else if obj.GetEmployeeCode = ecode then some (file, [Printed.record obj])
    else
      let (file1, obj1) := file.read obj
      searchLoop fuel ecode file1 obj1

/-- The function `Admin::searchRecord`, with the code read from the console as
`ecode`; `obj` is what the local object holds before the first read.  The result is
what the call prints. -/
def searchRecord (fuel : Nat) (obj : Employee) (ecode : Int) (store : Option FileData) :
    Option (List Printed) :=
  let file := IFStream.openIn store
  if !file.fail then
    let (file1, obj1) := file.read obj
    match searchLoop fuel ecode file1 obj1 with
    | none => none
    | some (file2, out) =>
      if file2.eof then some (out ++ [Printed.recordNotFound]) else some out
  else some []

/-- The reading loop of `list`:
`while (!file.eof()) { x.push_back(obj); file.read(&obj); }`. -/
def listReadLoop : Nat → IFStream → Employee → List Employee →
    Option (IFStream × Employee × List Employee)
  | 0, _, _, _ => none
  | fuel + 1, file, obj, x =>
    if file.eof then some (file, obj, x)
    else
      let x1 := x ++ [obj]
      let (file1, obj1) := file.read obj
      listReadLoop fuel file1 obj1 x1

/-- The body of the inner sorting loop of `list` for one `j`:
`if (x[j].GetGrade() < x[j + 1].GetGrade()) { temp = x[j + 1]; x[j + 1] = x[j]; x[j] = temp; }`.
Both indices are inside the vector whenever the loop runs the body. -/
def sortStep (x : List Employee) (j : Nat) : List Employee :=
  match x[j]?, x[j + 1]? with
  | some a, some b =>
    if a.GetGrade < b.GetGrade then (x.set (j + 1) a).set j b else x
  | _, _ => x

/-- The inner sorting loop of `list` for one `i`:
`for (int j = 0; j < x.size() - i - 1; j++)`.  The outer loop runs it with
`i < x.size()` only, so the unsigned `x.size() - i - 1` does not wrap around. -/
def sortPass (x : List Employee) (i : Nat) : List Employee :=
  (List.range (x.length - i - 1)).foldl sortStep x

/-- The sorting loops of `list`: `for (int i = 0; i < x.size(); i++)` around the inner loop. -/
def sortByGrade (x : List Employee) : List Employee :=
  (List.range x.length).foldl sortPass x

/-- The function `Admin::list`; `obj` is what the local object holds before the
first read.  The result is what the call prints. -/
def list (fuel : Nat) (obj : Employee) (store : Option FileData) : Option (List Printed) :=
  let file := IFStream.openIn store
  if !file.fail then
    let (file1, obj1) := file.read obj
    match listReadLoop fuel file1 obj1 [] with
    | none => none
    | some (_, _, x) =>
      let x := sortByGrade x
      if x.isEmpty then some [Printed.noRecords]
      else some (x.map Printed.record)
  else some []

end Admin

/-! ## Text files and streams -/

/-- The space character, which `Signup` writes between user name and password. -/
def SP : Char := Char.ofNat 32

/-- The line feed, which `endl` writes. -/
def LF : Char := Char.ofNat 10

/-- The whitespace characters of the stream's locale: space, `\t`, `\n`, `\v`, `\f`, `\r`. -/
def isspace (c : Char) : Bool :=
  c.toNat = 32 || (9 ≤ c.toNat && c.toNat ≤ 13)

/-- An input stream on a text file. -/
structure TextStream where
  /-- The characters from the read position on. -/
  rest : List Char
  eofbit : Bool
  failbit : Bool
  deriving DecidableEq

namespace TextStream

/-- The constructor `ifstream myfile(name)`: a file that does not exist leaves the stream
with `failbit` set. -/
def openIn : Option (List Char) → TextStream
  | none => { rest := [], eofbit := false, failbit := true }
  | some text => { rest := text, eofbit := false, failbit := false }

/-- The extraction `stream >> str` of a `std::string`.  A stream that is not good only
gets `failbit`.  Otherwise leading whitespace is skipped; when the file ends there,
`eofbit` and `failbit` are set and `str` keeps its value.  Otherwise `str` becomes
the characters up to the next whitespace, which stays in the stream, or up to the last
character of the file, which sets `eofbit`. -/
def extract (s : TextStream) (str : List Char) : TextStream × List Char :=
  if s.eofbit || s.failbit then ({ s with failbit := true }, str)
  else
    match s.rest.dropWhile isspace with
    | [] => ({ rest := [], eofbit := true, failbit := true }, str)
    | c :: cs =>
      let token := (c :: cs).takeWhile (fun d => !isspace d)
      let rest := (c :: cs).dropWhile (fun d => !isspace d)
      ({ rest := rest, eofbit := rest.isEmpty, failbit := false }, token)

end TextStream

/-! ## Log_Sign -/

/-- The three ways `Login` ends. -/
inductive LoginOutcome where
  /-- It prints "LOGIN SUCCESSFUL." and returns true. -/
  | successful
  /-- The branch `temp > 3`: it returns false without a message. -/
  | gaveUp
  /-- It prints "Invalid credentials. Please try again." and returns false. -/
  | invalidCredentials
  deriving DecidableEq

/-- The value `Login` returns. -/
def LoginOutcome.result : LoginOutcome → Bool
  | LoginOutcome.successful => true
  | _ => false

namespace Log_Sign

/-- The scanning loop of `Login`:
`while (myfile >> User >> Pass) { if (User == UserName && Pass == Password) count = 1; }`.
The loop goes on as long as the stream has not failed after both extractions. -/
def loginLoop : Nat → TextStream → List Char → List Char → List Char → List Char → Int →
    Option Int
  | 0, _, _, _, _, _, _ => none
  | fuel + 1, myfile, User, Pass, UserName, Password, count =>
    let (myfile1, User1) := myfile.extract User
    let (myfile2, Pass1) := myfile1.extract Pass
    if myfile2.failbit then some count
    else
      let count1 := if User1 = UserName ∧ Pass1 = Password then 1 else count
      loginLoop fuel myfile2 User1 Pass1 UserName Password count1

/-- The function `Log_Sign::Login`, with the user name and the password typed at the console
as `UserName` and `Password`, on a fresh `Log_Sign` object (`User` and `Pass` empty);
`userData` is `userData.txt`. -/
def Login (fuel : Nat) (userData : Option (List Char)) (UserName Password : List Char) :
    Option LoginOutcome :=
  let count : Int := 0
  let temp : Int := 1
  let myfile := TextStream.openIn userData
  match loginLoop fuel myfile [] [] UserName Password count with
  | none => none
  | some count =>
    if count = 1 then some LoginOutcome.successful
    else
      let temp := temp + 1
      if temp > 3 then some LoginOutcome.gaveUp
      else some LoginOutcome.invalidCredentials

/-- The function `Log_Sign::Signup`, with the user name and the password typed at the console as
`UserName` and `Password`: `file << UserName << " " << Password << endl` on
`userData.txt` opened with `ios::app`, which creates the file when it does not exist.
The result is the text the file holds then. -/
def Signup (userData : Option (List Char)) (UserName Password : List Char) : List Char :=
  let old := match userData with
    | none => []
    | some text => text
  old ++ UserName ++ [SP] ++ Password ++ [LF]

end Log_Sign

/-! ## Menu -/

/-- What is typed during one pass of `mainMenu` from the label `y`: the choice at the
menu, the user name and password typed in `Signup`, which runs only for the choice 2,
and the user name and password typed in `Login`. -/
structure MenuRound where
  choice2 : Int
  newUserName : List Char
  newPassword : List Char
  UserName : List Char
  Password : List Char
  deriving DecidableEq

/-- What `mainMenu` does, in order. -/
inductive MenuEvent where
  /-- A call `A.Signup()`. -/
  | signup
  /-- A call `A.Login()` and the way it ended. -/
  | login (outcome : LoginOutcome)
  /-- The loop of the admin menu, entered when `success` is true; only `exit` leaves it. -/
  | adminMenu
  /-- The `default` branch of the first menu: `exit(EXIT_FAILURE)`. -/
  | exitFailure
  deriving DecidableEq

namespace Menu

/-- The login part of `Menu::mainMenu`, on the rounds typed at the console.  Each pass
from the label `y` reads `choice2` and creates a fresh `Log_Sign A`; the choice 1 calls
`A.Login()`, the choice 2 calls `A.Signup()` and jumps to that call, any other
choice exits.  When `success` is false the `goto y` starts the next pass.  The result is
what was done when the rounds typed are used up and the menu waits for a choice. -/
def mainMenu (fuel : Nat) : Option (List Char) → List MenuRound → Option (List MenuEvent)
  | _, [] => some []
  | userData, r :: rest =>
    if r.choice2 = 1 then
      match Log_Sign.Login fuel userData r.UserName r.Password with
      | none => none
      | some outcome =>
        if outcome.result then some [MenuEvent.login outcome, MenuEvent.adminMenu]
        else (mainMenu fuel userData rest).map (fun t => MenuEvent.login outcome :: t)
    else if r.choice2 = 2 then
      let userData1 := some (Log_Sign.Signup userData r.newUserName r.newPassword)
      match Log_Sign.Login fuel userData1 r.UserName r.Password with
      | none => none
      | some outcome =>
        if outcome.result then
          some [MenuEvent.signup, MenuEvent.login outcome, MenuEvent.adminMenu]
        else (mainMenu fuel userData1 rest).map
          (fun t => MenuEvent.signup :: MenuEvent.login outcome :: t)
    else some [MenuEvent.exitFailure]

end Menu

/-! ## Notions of the specification and of the proofs -/

/-- The rule of `ValidateDate` in the specification: month in [1,12], year in [1950,2004],
day in [1,31], at most 30 in April, June, September and November, and in February
at most 29 when the year is divisible by 4 and at most 28 otherwise. -/
def ValidateDate (day month year : Int) : Prop :=
  (1 ≤ month ∧ month ≤ 12) ∧ (1950 ≤ year ∧ year ≤ 2004) ∧ (1 ≤ day ∧ day ≤ 31) ∧
  ((month = 4 ∨ month = 6 ∨ month = 9 ∨ month = 11) → day ≤ 30) ∧
  (month = 2 → if Int.tmod year 4 = 0 then day ≤ 29 else day ≤ 28)

/-- The stream a read leaves once it has run into the end of the file. -/
def IFStream.atEnd : IFStream :=
  { pending := [], ragged := false, eofbit := true, failbit := true }

/-- The number of records `EMPLOYEE.DAT` holds. -/
def recordCount (disk : Disk) : Nat :=
  match disk.employeeDat with
  | some f => f.records.length
  | none => 0

/-- One pass of the inner sorting loop over the first `m + 1` elements, as a recursion on
the list: the element carried along is compared with its right neighbour and moves on
when its grade is smaller. -/
def bubble : Nat → List Employee → List Employee
  | m + 1, a :: b :: rest =>
    if a.grade < b.grade then b :: bubble m (a :: rest) else a :: bubble m (b :: rest)
  | _, x => x

/-- A user name or password that `>>` reads back as one string: not empty and without
whitespace. -/
abbrev isToken (t : List Char) : Prop :=
  t ≠ [] ∧ ∀ c ∈ t, isspace c = false

/-- The text of a credential file with one line "username password" for each pair, the
text that one `Signup` for each pair builds. -/
def credentialText : List (List Char × List Char) → List Char
  | [] => []
  | (u, p) :: rest => u ++ SP :: (p ++ LF :: credentialText rest)

/-- The lines of the text `cur ++ text`, where `cur` has no line feed: the stretches
between line feeds; characters after the last line feed are a line too. -/
def linesFrom : List Char → List Char → List (List Char)
  | cur, [] => if cur = [] then [] else [cur]
  | cur, c :: cs => if c = LF then cur :: linesFrom [] cs else linesFrom (cur ++ [c]) cs

/-- The lines of a text. -/
def lines (text : List Char) : List (List Char) :=
  linesFrom [] text

/-- A line holds exactly the pair when it is the user name, one space, the password. -/
abbrev lineHolds (line UserName Password : List Char) : Prop :=
  line = UserName ++ SP :: Password

/-- The six setters of `Income`. -/
inductive IncomeSetter where
  | SetBaseSalary
  | SetLoan
  | SetBonus
  | SetTax
  | SetMedicalAllowance
  | SetTravelAllowance
  deriving DecidableEq

/-- One call of a setter of `Income`: the setter, its argument, what `cin` holds for the
call and the fuel for its loop. -/
structure SetterCall where
  setter : IncomeSetter
  value : CFloat
  cin : Cin Rat
  fuel : Nat

/-- The object after the call, `none` when the call does not return. -/
def Income.call (self : Income) (c : SetterCall) : Option Income :=
  let r := match c.setter with
    | IncomeSetter.SetBaseSalary => self.SetBaseSalary c.fuel c.value c.cin
    | IncomeSetter.SetLoan => self.SetLoan c.fuel c.value c.cin
    | IncomeSetter.SetBonus => self.SetBonus c.fuel c.value c.cin
    | IncomeSetter.SetTax => self.SetTax c.fuel c.value c.cin
    | IncomeSetter.SetMedicalAllowance => self.SetMedicalAllowance c.fuel c.value c.cin
    | IncomeSetter.SetTravelAllowance => self.SetTravelAllowance c.fuel c.value c.cin
  r.map (fun res => res.1)

/-- The object after a sequence of calls, `none` when one of them does not return. -/
def Income.calls : Income → List SetterCall → Option Income
  | self, [] => some self
  | self, c :: rest =>
    match Income.call self c with
    | none => none
    | some self1 => Income.calls self1 rest

/-- All six fields are `>= 0`. -/
def Income.allGe0 (self : Income) : Prop :=
  self.baseSalary.ge0 = true ∧ self.loan.ge0 = true ∧ self.bonus.ge0 = true ∧
  self.tax.ge0 = true ∧ self.medicalAllowance.ge0 = true ∧ self.travelAllowance.ge0 = true

/-- No field is `< 0`. -/
def Income.noneLt0 (self : Income) : Prop :=
  self.baseSalary.lt0 = false ∧ self.loan.lt0 = false ∧ self.bonus.lt0 = false ∧
  self.tax.lt0 = false ∧ self.medicalAllowance.lt0 = false ∧ self.travelAllowance.lt0 = false

/-! ## Sample data -/

/-- A record with the given code, grade and name, for the examples. -/
def sampleEmployee (code grade : Int) (name : List Char) : Employee :=
  { employeeCode := code, grade := grade, dd := 1, mm := 1, yy := 2000,
    name := name ++ [NUL], address := [NUL], phone := [NUL], designation := [NUL],
    income := Income.new }

/-- Code 1, grade 3. -/
def alice : Employee := sampleEmployee 1 3 ['A']

/-- Code 1 as well, grade 2. -/
def bob : Employee := sampleEmployee 1 2 ['B']

/-- Code 2, grade 1. -/
def carol : Employee := sampleEmployee 2 1 ['C']

/-- Code 3, grade 3. -/
def dave : Employee := sampleEmployee 3 3 ['D']

/-- A name of 40 characters: four times "abcdefghij". -/
def fortyChars : List Char :=
  let ten := ['a', 'b', 'c', 'd', 'e', 'f', 'g', 'h', 'i', 'j']
  ten ++ ten ++ ten ++ ten

/-- The user name "alice". -/
def userAlice : List Char := ['a', 'l', 'i', 'c', 'e']

/-- The user name "bob". -/
def userBob : List Char := ['b', 'o', 'b']

/-- The password "secret". -/
def passSecret : List Char := ['s', 'e', 'c', 'r', 'e', 't']

/-- The password "wrong". -/
def passWrong : List Char := ['w', 'r', 'o', 'n', 'g']

/-- The password "my secret", with a space in it. -/
def passMySecret : List Char := ['m', 'y', SP, 's', 'e', 'c', 'r', 'e', 't']

/-- The word "my". -/
def passMy : List Char := ['m', 'y']

/-- The console with a single 0 typed. -/
def zeroTyped (α : Type) [OfNat α 0] : Cin α :=
  { pending := [some 0], failbit := false }

/-- The console at the end of its input. -/
def nothingTyped (α : Type) : Cin α :=
  { pending := [], failbit := false }

/-- A pass of the menu with the choice 1, the user name "alice" and the password "wrong". -/
def wrongRound : MenuRound :=
  { choice2 := 1, newUserName := [], newPassword := [], UserName := userAlice,
    Password := passWrong }

/-! # Theorems -/

/-! ## Validation helpers -/

/-- C7: for all integers day, month and year, `validDate` returns 1 exactly when the
date rule of the specification holds, and 0 in every other case. -/
theorem validDate_iff_ValidateDate (day month year : Int) :
    (Employee.validDate day month year = 1 ↔ ValidateDate day month year) ∧
    (Employee.validDate day month year = 0 ↔ ¬ ValidateDate day month year) := by
  unfold Employee.validDate ValidateDate
  by_cases hy : Int.tmod year 4 = 0
  · simp only [hy, if_true, ne_eq, not_true_eq_false, false_and, true_and, false_or]
    split_ifs <;> constructor <;> constructor <;> intro h <;> omega
  · simp only [hy, if_false, ne_eq, not_false_eq_true, false_and, true_and, or_false]
    split_ifs <;> constructor <;> constructor <;> intro h <;> omega

/-- The dates the specification lists, evaluated: 29 February 2000 is valid; 29 February
1999, 31 April 2001, month 13 and the year 1949 are not. -/
theorem validDate_examples :
    Employee.validDate 29 2 2000 = 1 ∧ Employee.validDate 29 2 1999 = 0 ∧
    Employee.validDate 31 4 2001 = 0 ∧ Employee.validDate 15 13 2001 = 0 ∧
    Employee.validDate 1 1 1949 = 0 := by
  decide

/-! ## Truncation of the string fields -/

theorem cstring_setBuffer (limit : Nat) (s buf : List Char) (hs : NUL ∉ s) :
    cstring (setBuffer limit s buf) = s.take (min s.length limit) := by
  have hlen : (if s.length < limit then s.length else limit) = min s.length limit := by
    split_ifs <;> omega
  have hpre : ∀ c ∈ s.take (min s.length limit), (c != NUL) = true := by
    intro c hc
    have hmem : c ∈ s := List.mem_of_mem_take hc
    simp only [bne_iff_ne, ne_eq]
    intro h
    exact hs (h ▸ hmem)
  unfold cstring setBuffer
  simp only [hlen]
  rw [List.takeWhile_append_of_pos hpre]
  simp [List.takeWhile_cons]

/-- C8: for every string `s` without a NUL character, whatever the object held before,
`GetName` after `SetName(s)` is the first min(|s|, 25) characters of `s`, and likewise
for the address with 30, the phone with 10 and the designation with 15; a name within
the limit is stored unchanged and a longer one as exactly its first 25 characters. -/
theorem setters_truncate (obj : Employee) (s : List Char) (hs : NUL ∉ s) :
    (obj.SetName s).GetName = s.take (min s.length 25) ∧
    (obj.SetAddress s).GetAddress = s.take (min s.length 30) ∧
    (obj.SetPhone s).GetPhone = s.take (min s.length 10) ∧
    (obj.SetDesignation s).GetDesignation = s.take (min s.length 15) ∧
    (s.length ≤ 25 → (obj.SetName s).GetName = s) ∧
    (25 ≤ s.length →
      (obj.SetName s).GetName = s.take 25 ∧ (obj.SetName s).GetName.length = 25) := by
  have hname : (obj.SetName s).GetName = s.take (min s.length 25) :=
    cstring_setBuffer 25 s obj.name hs
  refine ⟨hname, cstring_setBuffer 30 s obj.address hs, cstring_setBuffer 10 s obj.phone hs,
    cstring_setBuffer 15 s obj.designation hs, ?_, ?_⟩
  · intro h
    rw [hname, Nat.min_eq_left h, List.take_length]
  · intro h
    rw [hname, Nat.min_eq_right h]
    exact ⟨rfl, by rw [List.length_take]; omega⟩

/-- The truncation of C8 at a name of 40 characters set on a sample record. -/
theorem setters_truncate_witness :
    NUL ∉ fortyChars ∧ fortyChars.length = 40 ∧
    ((sampleEmployee 1 1 []).SetName fortyChars).GetName = fortyChars.take 25 ∧
    ((sampleEmployee 1 1 []).SetName fortyChars).GetName.length = 25 :=
  have h : NUL ∉ fortyChars := by decide
  ⟨h, by decide, ((setters_truncate (sampleEmployee 1 1 []) fortyChars h).2.2.2.2.2
    (by decide)).1, ((setters_truncate (sampleEmployee 1 1 []) fortyChars h).2.2.2.2.2
    (by decide)).2⟩

/-! ## The loops of the record store on a file that could be opened -/

theorem deleteCopyLoop_good (ecode : Int) (g : Bool) (records : List Employee) :
    ∀ (fuel : Nat) (self : Employee) (temp : List Employee), records.length < fuel →
      ∃ self1, Admin.deleteCopyLoop fuel ecode
          { pending := records, ragged := g, eofbit := false, failbit := false } self temp
        = some (IFStream.atEnd, self1,
            temp ++ records.filter (fun e => e.employeeCode ≠ ecode)) := by
  induction records with
  | nil =>
    intro fuel self temp h
    cases fuel with
    | zero => omega
    | succ n => exact ⟨self, by simp [Admin.deleteCopyLoop, IFStream.eof, IFStream.read,
        IFStream.atEnd]⟩
  | cons r rest ih =>
    intro fuel self temp h
    cases fuel with
    | zero => omega
    | succ n =>
      have hn : rest.length < n := by simpa using h
      by_cases hc : r.employeeCode = ecode
      · obtain ⟨self1, h1⟩ := ih n r temp hn
        exact ⟨self1, by simp [Admin.deleteCopyLoop, IFStream.eof, IFStream.read,
          Employee.GetEmployeeCode, hc, h1]⟩
      · obtain ⟨self1, h1⟩ := ih n r (temp ++ [r]) hn
        exact ⟨self1, by simp [Admin.deleteCopyLoop, IFStream.eof, IFStream.read,
          Employee.GetEmployeeCode, hc, h1]⟩

theorem deleteRestoreLoop_good (g : Bool) (records : List Employee) :
    ∀ (fuel : Nat) (self : Employee) (file : List Employee), records.length < fuel →
      ∃ self1, Admin.deleteRestoreLoop fuel
          { pending := records, ragged := g, eofbit := false, failbit := false } self file
        = some (IFStream.atEnd, self1, file ++ records) := by
  induction records with
  | nil =>
    intro fuel self file h
    cases fuel with
    | zero => omega
    | succ n => exact ⟨self, by simp [Admin.deleteRestoreLoop, IFStream.eof, IFStream.read,
        IFStream.atEnd]⟩
  | cons r rest ih =>
    intro fuel self file h
    cases fuel with
    | zero => omega
    | succ n =>
      obtain ⟨self1, h1⟩ := ih n r (file ++ [r]) (by simpa using h)
      exact ⟨self1, by simp [Admin.deleteRestoreLoop, IFStream.eof, IFStream.read, h1]⟩

/-- On a file that exists, with more fuel than it has whole records, `deleteRecord`
returns, and both files then hold the records with another code, in file order. -/
theorem deleteRecord_present (fuel : Nat) (self : Employee) (ecode : Int) (f : FileData)
    (tmp : Option FileData) (h : f.records.length < fuel) :
    ∃ self1, Admin.deleteRecord fuel self ecode { employeeDat := some f, tempDat := tmp }
      = some ({ employeeDat :=
                  some (FileData.whole (f.records.filter (fun e => e.employeeCode ≠ ecode))),
                tempDat :=
                  some (FileData.whole (f.records.filter (fun e => e.employeeCode ≠ ecode))) },
              self1) := by
  obtain ⟨self1, h1⟩ := deleteCopyLoop_good ecode f.ragged f.records fuel self [] h
  have hlen : (f.records.filter (fun e => e.employeeCode ≠ ecode)).length < fuel :=
    Nat.lt_of_le_of_lt (List.length_filter_le _ _) h
  obtain ⟨self2, h2⟩ := deleteRestoreLoop_good false
    (f.records.filter (fun e => e.employeeCode ≠ ecode)) fuel self1 [] hlen
  refine ⟨self2, ?_⟩
  simp only [List.nil_append] at h1 h2
  simp only [Admin.deleteRecord, IFStream.openIn, FileData.whole, h1, h2]

theorem searchLoop_good (ecode : Int) (g : Bool) (rest : List Employee) :
    ∀ (fuel : Nat) (r : Employee), rest.length + 1 < fuel →
      ∃ file1, Admin.searchLoop fuel ecode
          { pending := rest, ragged := g, eofbit := false, failbit := false } r
        = some (file1,
            match (r :: rest).find? (fun e => e.employeeCode = ecode) with
            | some e => [Printed.record e]
            | none => []) ∧
        file1.eofbit = ((r :: rest).find? (fun e => e.employeeCode = ecode)).isNone := by
  induction rest with
  | nil =>
    intro fuel r h
    obtain ⟨n, rfl⟩ : ∃ n, fuel = n + 2 := ⟨fuel - 2, by omega⟩
    by_cases hc : r.employeeCode = ecode
    · exact ⟨{ pending := [], ragged := g, eofbit := false, failbit := false }, by
        simp [Admin.searchLoop, IFStream.eof, Employee.GetEmployeeCode, hc], by simp [hc]⟩
    · exact ⟨IFStream.atEnd, by simp [Admin.searchLoop, IFStream.eof, IFStream.read,
        Employee.GetEmployeeCode, hc, IFStream.atEnd], by simp [hc, IFStream.atEnd]⟩
  | cons r2 rest ih =>
    intro fuel r h
    obtain ⟨n, rfl⟩ : ∃ n, fuel = n + 1 := ⟨fuel - 1, by omega⟩
    by_cases hc : r.employeeCode = ecode
    · exact ⟨{ pending := r2 :: rest, ragged := g, eofbit := false, failbit := false }, by
        simp [Admin.searchLoop, IFStream.eof, Employee.GetEmployeeCode, hc], by simp [hc]⟩
    · obtain ⟨file1, h1, h2⟩ := ih n r2 (by simpa using h)
      refine ⟨file1, ?_, ?_⟩
      · simp only [Admin.searchLoop, IFStream.eof, IFStream.read, Employee.GetEmployeeCode, hc,
          Bool.false_eq_true, if_false, Bool.or_self, h1]
        simp [List.find?_cons, hc]
      · rw [h2]
        simp [List.find?_cons, hc]

/-- On a file that exists, with more fuel than it has whole records, `searchRecord`
returns: it prints the first record with the code when there is one, and
"Record Not Found" when there is none. -/
theorem searchRecord_present (fuel : Nat) (obj : Employee) (ecode : Int) (f : FileData)
    (h : f.records.length < fuel) :
    Admin.searchRecord fuel obj ecode (some f)
      = some (match f.records.find? (fun e => e.employeeCode = ecode) with
          | some e => [Printed.record e]
          | none => [Printed.recordNotFound]) := by
  obtain ⟨records, g⟩ := f
  cases records with
  | nil =>
    obtain ⟨n, rfl⟩ : ∃ n, fuel = n + 1 := ⟨fuel - 1, by simp at h; omega⟩
    simp [Admin.searchRecord, IFStream.openIn, IFStream.fail, IFStream.read, Admin.searchLoop,
      IFStream.eof]
  | cons r rest =>
    obtain ⟨file1, h1, h2⟩ := searchLoop_good ecode g rest fuel r (by simpa using h)
    simp only [Admin.searchRecord, IFStream.openIn, IFStream.fail, IFStream.read, h1,
      IFStream.eof, h2, Bool.not_false, if_true, Bool.or_self, Bool.false_eq_true, if_false]
    cases hfind : (r :: rest).find? (fun e => e.employeeCode = ecode) <;> simp

/-! ## The sorting loops of `list` -/

theorem sortStep_at (pre : List Employee) (a b : Employee) (rest : List Employee) :
    Admin.sortStep (pre ++ a :: b :: rest) pre.length
      = pre ++ (if a.grade < b.grade then b :: a :: rest else a :: b :: rest) := by
  have ha : (pre ++ a :: b :: rest)[pre.length]? = some a := by
    rw [List.getElem?_append_right (Nat.le_refl _)]
    simp
  have hb : (pre ++ a :: b :: rest)[pre.length + 1]? = some b := by
    rw [List.getElem?_append_right (Nat.le_succ _)]
    simp
  unfold Admin.sortStep
  rw [ha, hb]
  simp only [Employee.GetGrade]
  split_ifs
  · simp [List.set_append]
  · rfl

theorem sortStep_outside (x : List Employee) (j : Nat) (h : x.length ≤ j + 1) :
    Admin.sortStep x j = x := by
  have hb : x[j + 1]? = none := List.getElem?_eq_none h
  unfold Admin.sortStep
  rw [hb]
  cases x[j]? <;> rfl

theorem foldl_sortStep_outside (m : Nat) :
    ∀ (s : Nat) (x : List Employee), x.length ≤ s + 1 →
      (List.range' s m).foldl Admin.sortStep x = x := by
  induction m with
  | zero => intro s x _; rfl
  | succ m ih =>
    intro s x h
    rw [List.range'_succ, List.foldl_cons, sortStep_outside x s h]
    exact ih (s + 1) x (Nat.le_succ_of_le h)

theorem foldl_sortStep_eq_bubble (m : Nat) :
    ∀ (pre x : List Employee),
      (List.range' pre.length m).foldl Admin.sortStep (pre ++ x) = pre ++ bubble m x := by
  induction m with
  | zero => intro pre x; cases x with
    | nil => rfl
    | cons a t => cases t <;> rfl
  | succ m ih =>
    intro pre x
    match x with
    | [] =>
      rw [foldl_sortStep_outside (m + 1) pre.length (pre ++ []) (by simp)]
      rfl
    | [a] =>
      rw [foldl_sortStep_outside (m + 1) pre.length (pre ++ [a]) (by simp)]
      rfl
    | a :: b :: rest =>
      rw [List.range'_succ, List.foldl_cons, sortStep_at]
      by_cases hlt : a.grade < b.grade
      · have h := ih (pre ++ [b]) (a :: rest)
        simp only [List.length_append, List.length_singleton, List.append_assoc,
          List.singleton_append] at h
        simp only [hlt, if_true, bubble]
        exact h
      · have h := ih (pre ++ [a]) (b :: rest)
        simp only [List.length_append, List.length_singleton, List.append_assoc,
          List.singleton_append] at h
        simp only [hlt, if_false, bubble]
        exact h

theorem sortPass_eq_bubble (x : List Employee) (i : Nat) :
    Admin.sortPass x i = bubble (x.length - i - 1) x := by
  have h := foldl_sortStep_eq_bubble (x.length - i - 1) [] x
  simpa [Admin.sortPass, List.range_eq_range'] using h

theorem bubble_perm (m : Nat) : ∀ x : List Employee, (bubble m x).Perm x := by
  induction m with
  | zero => intro x; cases x with
    | nil => exact List.Perm.refl _
    | cons a t => cases t <;> exact List.Perm.refl _
  | succ m ih =>
    intro x
    match x with
    | [] => exact List.Perm.refl _
    | [a] => exact List.Perm.refl _
    | a :: b :: rest =>
      by_cases hlt : a.grade < b.grade
      · simp only [bubble, hlt, if_true]
        exact ((ih (a :: rest)).cons b).trans (List.Perm.swap a b rest)
      · simp only [bubble, hlt, if_false]
        exact (ih (b :: rest)).cons a

theorem bubble_filter (g : Int) (m : Nat) :
    ∀ x : List Employee,
      (bubble m x).filter (fun e => e.grade = g) = x.filter (fun e => e.grade = g) := by
  induction m with
  | zero => intro x; cases x with
    | nil => rfl
    | cons a t => cases t <;> rfl
  | succ m ih =>
    intro x
    match x with
    | [] => rfl
    | [a] => rfl
    | a :: b :: rest =>
      by_cases hlt : a.grade < b.grade
      · simp only [bubble, hlt, if_true]
        have h := ih (a :: rest)
        by_cases ha : a.grade = g <;> by_cases hb : b.grade = g
        · omega
        · simpa [List.filter_cons, ha, hb] using h
        · simpa [List.filter_cons, ha, hb] using h
        · simpa [List.filter_cons, ha, hb] using h
      · simp only [bubble, hlt, if_false]
        have h := ih (b :: rest)
        by_cases ha : a.grade = g
        · simp only [List.filter_cons, ha, decide_True, if_true] at h ⊢
          rw [h]
        · simp only [List.filter_cons, ha, decide_False] at h ⊢
          exact h

theorem bubble_append (m : Nat) :
    ∀ (front back : List Employee), m + 1 ≤ front.length →
      bubble m (front ++ back) = bubble m front ++ back := by
  induction m with
  | zero => intro front back _; cases front with
    | nil => cases back with
      | nil => rfl
      | cons a t => cases t <;> rfl
    | cons a t => cases t with
      | nil => cases back <;> rfl
      | cons b t => rfl
  | succ m ih =>
    intro front back h
    match front with
    | [] => simp at h
    | [a] => simp at h
    | a :: b :: rest =>
      have hlen : m + 1 ≤ (a :: rest).length := by simpa using h
      have hlen2 : m + 1 ≤ (b :: rest).length := by simpa using h
      have h1 := ih (a :: rest) back hlen
      have h2 := ih (b :: rest) back hlen2
      simp only [List.cons_append] at h1 h2 ⊢
      by_cases hlt : a.grade < b.grade
      · simp only [bubble, hlt, if_true, h1, List.cons_append]
      · simp only [bubble, hlt, if_false, h2, List.cons_append]

theorem bubble_sinks (m : Nat) :
    ∀ x : List Employee, x.length = m + 1 →
      ∃ init z, bubble m x = init ++ [z] ∧ ∀ e ∈ x, z.grade ≤ e.grade := by
  induction m with
  | zero =>
    intro x h
    cases x with
    | nil => simp at h
    | cons z t =>
      cases t with
      | nil => exact ⟨[], z, rfl, by simp⟩
      | cons b t => simp at h
  | succ m ih =>
    intro x h
    cases x with
    | nil => simp at h
    | cons a t =>
      cases t with
      | nil => simp at h
      | cons b rest =>
        by_cases hlt : a.grade < b.grade
        · obtain ⟨init, z, h1, h2⟩ := ih (a :: rest) (by simpa using h)
          refine ⟨b :: init, z, by simp only [bubble, hlt, if_true, h1, List.cons_append], ?_⟩
          intro e he
          have hz := h2 a (List.mem_cons_self _ _)
          rcases List.mem_cons.mp he with rfl | he
          · exact h2 e (List.mem_cons_self _ _)
          · rcases List.mem_cons.mp he with rfl | he
            · omega
            · exact h2 e (List.mem_cons_of_mem _ he)
        · obtain ⟨init, z, h1, h2⟩ := ih (b :: rest) (by simpa using h)
          refine ⟨a :: init, z, by simp only [bubble, hlt, if_false, h1, List.cons_append], ?_⟩
          intro e he
          have hz := h2 b (List.mem_cons_self _ _)
          rcases List.mem_cons.mp he with rfl | he
          · omega
          · exact h2 e he

/-- After `k` runs of the outer loop the last `k` elements are in their final place:
they are in non-increasing order of grade and no element before them has a
smaller grade; the vector is a rearrangement of the one read that kept the order
of the records of each grade. -/
theorem sortPasses_invariant (x : List Employee) :
    ∀ k, k ≤ x.length →
      ∃ front back, (List.range k).foldl Admin.sortPass x = front ++ back ∧
        back.length = k ∧
        back.Pairwise (fun a b => b.grade ≤ a.grade) ∧
        (∀ a ∈ front, ∀ b ∈ back, b.grade ≤ a.grade) ∧
        (front ++ back).Perm x ∧
        ∀ g : Int, (front ++ back).filter (fun e => e.grade = g)
          = x.filter (fun e => e.grade = g) := by
  intro k
  induction k with
  | zero =>
    intro _
    exact ⟨x, [], by simp, rfl, List.Pairwise.nil, by simp, by simp, by simp⟩
  | succ k ih =>
    intro hk
    obtain ⟨front, back, hfold, hlen, hsorted, hle, hperm, hfilter⟩ := ih (Nat.le_of_succ_le hk)
    have hlength : front.length + back.length = x.length := by
      rw [← List.length_append]
      exact hperm.length_eq
    have hfront : front.length = (x.length - k - 1) + 1 := by omega
    obtain ⟨init, z, hb, hz⟩ := bubble_sinks (x.length - k - 1) front hfront
    have hpass : Admin.sortPass (front ++ back) k = init ++ z :: back := by
      rw [sortPass_eq_bubble, List.length_append, hlength,
        bubble_append _ front back (by omega), hb]
      simp
    have hp : (init ++ [z]).Perm front := hb ▸ bubble_perm _ front
    have hzmem : z ∈ front := hp.subset (by simp)
    have hinit : ∀ a ∈ init, a ∈ front := fun a ha => hp.subset (by simp [ha])
    refine ⟨init, z :: back, ?_, by simp [hlen], ?_, ?_, ?_, ?_⟩
    · rw [List.range_succ, List.foldl_append, hfold]
      simpa using hpass
    · exact List.Pairwise.cons (fun b hb => hle z hzmem b hb) hsorted
    · intro a ha b hb
      rcases List.mem_cons.mp hb with rfl | hb
      · exact hz a (hinit a ha)
      · exact hle a (hinit a ha) b hb
    · have h1 : (init ++ z :: back).Perm (front ++ back) := by
        have := hp.append_right back
        simpa using this
      exact h1.trans hperm
    · intro g
      rw [← hfilter g]
      have h1 := bubble_filter g (x.length - k - 1) front
      rw [hb] at h1
      have h2 : init ++ z :: back = (init ++ [z]) ++ back := by simp
      rw [h2, List.filter_append, h1, List.filter_append]

/-- The sorting loops give the stable sort by grade, largest first. -/
theorem sortByGrade_spec (x : List Employee) :
    (Admin.sortByGrade x).Perm x ∧
    (Admin.sortByGrade x).Pairwise (fun a b => b.grade ≤ a.grade) ∧
    ∀ g : Int, (Admin.sortByGrade x).filter (fun e => e.grade = g)
      = x.filter (fun e => e.grade = g) := by
  obtain ⟨front, back, hfold, hlen, hsorted, _, hperm, hfilter⟩ :=
    sortPasses_invariant x x.length (Nat.le_refl _)
  have hfront : front = [] := by
    have h := hperm.length_eq
    rw [List.length_append, hlen] at h
    exact List.length_eq_zero.mp (by omega)
  subst hfront
  unfold Admin.sortByGrade
  rw [hfold]
  exact ⟨hperm, by simpa using hsorted, hfilter⟩

theorem listReadLoop_good (g : Bool) (rest : List Employee) :
    ∀ (fuel : Nat) (r : Employee) (x : List Employee), rest.length + 1 < fuel →
      ∃ file1 obj1, Admin.listReadLoop fuel
          { pending := rest, ragged := g, eofbit := false, failbit := false } r x
        = some (file1, obj1, x ++ r :: rest) := by
  induction rest with
  | nil =>
    intro fuel r x h
    obtain ⟨n, rfl⟩ : ∃ n, fuel = n + 2 := ⟨fuel - 2, by omega⟩
    exact ⟨IFStream.atEnd, r, by simp [Admin.listReadLoop, IFStream.eof, IFStream.read,
      IFStream.atEnd]⟩
  | cons r2 rest ih =>
    intro fuel r x h
    obtain ⟨n, rfl⟩ : ∃ n, fuel = n + 1 := ⟨fuel - 1, by omega⟩
    obtain ⟨file1, obj1, h1⟩ := ih n r2 (x ++ [r]) (by simpa using h)
    exact ⟨file1, obj1, by simp [Admin.listReadLoop, IFStream.eof, IFStream.read, h1]⟩

/-- On a file that exists, with more fuel than it has whole records, `list` returns:
it prints the sorted records, or the line "No employee records found." when
there is none. -/
theorem list_present (fuel : Nat) (obj : Employee) (f : FileData)
    (h : f.records.length < fuel) :
    Admin.list fuel obj (some f)
      = some (if f.records = [] then [Printed.noRecords]
          else (Admin.sortByGrade f.records).map Printed.record) := by
  obtain ⟨records, g⟩ := f
  cases records with
  | nil =>
    obtain ⟨n, rfl⟩ : ∃ n, fuel = n + 1 := ⟨fuel - 1, by simp at h; omega⟩
    simp [Admin.list, IFStream.openIn, IFStream.fail, IFStream.read, Admin.listReadLoop,
      IFStream.eof, Admin.sortByGrade]
  | cons r rest =>
    obtain ⟨file1, obj1, h1⟩ := listReadLoop_good g rest fuel r [] (by simpa using h)
    have hne : Admin.sortByGrade (r :: rest) ≠ [] := by
      intro hnil
      have := (sortByGrade_spec (r :: rest)).1.length_eq
      rw [hnil] at this
      simp at this
    simp [Admin.list, IFStream.openIn, IFStream.fail, IFStream.read, h1, hne]

theorem printedRecords_map (x : List Employee) :
    printedRecords (x.map Printed.record) = x := by
  induction x with
  | nil => rfl
  | cons a t ih => simp [printedRecords, ih]

/-! ## The credential file -/

theorem dropWhile_append_of_all {p : Char → Bool} (ws l : List Char)
    (h : ∀ c ∈ ws, p c = true) : (ws ++ l).dropWhile p = l.dropWhile p := by
  induction ws with
  | nil => rfl
  | cons w ws ih =>
    have hw : p w = true := h w (List.mem_cons_self _ _)
    simp only [List.cons_append, List.dropWhile_cons, hw, if_true]
    exact ih (fun c hc => h c (List.mem_cons_of_mem _ hc))

/-- Extraction from a good stream that holds whitespace, a token and a whitespace
character gives the token and stops in front of that character. -/
theorem extract_token (ws t : List Char) (w : Char) (rest str : List Char)
    (hws : ∀ c ∈ ws, isspace c = true) (ht : isToken t) (hw : isspace w = true) :
    TextStream.extract { rest := ws ++ (t ++ w :: rest), eofbit := false, failbit := false } str
      = ({ rest := w :: rest, eofbit := false, failbit := false }, t) := by
  obtain ⟨hne, hns⟩ := ht
  cases t with
  | nil => exact absurd rfl hne
  | cons c t =>
    have hc : isspace c = false := hns c (List.mem_cons_self _ _)
    have hall : ∀ d ∈ c :: t, (!isspace d) = true := by
      intro d hd
      simp [hns d hd]
    have hdrop : (ws ++ (c :: t ++ w :: rest)).dropWhile isspace = c :: (t ++ w :: rest) := by
      rw [dropWhile_append_of_all ws _ hws]
      simp [List.dropWhile_cons, hc]
    have htake : (c :: (t ++ w :: rest)).takeWhile (fun d => !isspace d) = c :: t := by
      have h := @List.takeWhile_append_of_pos Char (fun d => !isspace d) (c :: t) (w :: rest) hall
      simpa [List.takeWhile_cons, hw] using h
    have hdrop2 : (c :: (t ++ w :: rest)).dropWhile (fun d => !isspace d) = w :: rest := by
      have h := @dropWhile_append_of_all (fun d => !isspace d) (c :: t) (w :: rest) hall
      simpa [List.dropWhile_cons, hw] using h
    unfold TextStream.extract
    simp only [Bool.or_self, Bool.false_eq_true, if_false, hdrop, htake, hdrop2,
      List.isEmpty_cons]

/-- Extraction from a good stream that holds only whitespace sets both bits. -/
theorem extract_end (ws str : List Char) (hws : ∀ c ∈ ws, isspace c = true) :
    TextStream.extract { rest := ws, eofbit := false, failbit := false } str
      = ({ rest := [], eofbit := true, failbit := true }, str) := by
  have hdrop : ws.dropWhile isspace = [] := by
    have h := dropWhile_append_of_all ws [] hws
    simpa using h
  unfold TextStream.extract
  simp only [Bool.or_self, Bool.false_eq_true, if_false, hdrop]

theorem loginLoop_credentialText (UserName Password : List Char)
    (creds : List (List Char × List Char)) :
    ∀ (fuel : Nat) (ws User Pass : List Char) (count : Int),
      (∀ c ∈ creds, isToken c.1 ∧ isToken c.2) → (∀ c ∈ ws, isspace c = true) →
      creds.length < fuel →
      Log_Sign.loginLoop fuel
          { rest := ws ++ credentialText creds, eofbit := false, failbit := false }
          User Pass UserName Password count
        = some (if (UserName, Password) ∈ creds then 1 else count) := by
  induction creds with
  | nil =>
    intro fuel ws User Pass count _ hws h
    obtain ⟨n, rfl⟩ : ∃ n, fuel = n + 1 := ⟨fuel - 1, by simp at h; omega⟩
    simp only [credentialText, List.append_nil, Log_Sign.loginLoop, extract_end ws User hws]
    simp [TextStream.extract]
  | cons c rest ih =>
    intro fuel ws User Pass count hcreds hws h
    obtain ⟨n, rfl⟩ : ∃ n, fuel = n + 1 := ⟨fuel - 1, by omega⟩
    obtain ⟨u, p⟩ := c
    obtain ⟨hu, hp⟩ := hcreds (u, p) (List.mem_cons_self _ _)
    have hsp : isspace SP = true := by decide
    have hlf : isspace LF = true := by decide
    have h1 := extract_token ws u SP (p ++ LF :: credentialText rest) User hws hu hsp
    have h2 := extract_token [SP] p LF (credentialText rest) Pass (by simpa using hsp) hp hlf
    have hrest := ih n [LF] u p (if u = UserName ∧ p = Password then 1 else count)
      (fun c hc => hcreds c (List.mem_cons_of_mem _ hc)) (by simpa using hlf)
      (by simpa using h)
    simp only [List.singleton_append] at h2 hrest
    simp only [credentialText, Log_Sign.loginLoop, h1, h2, Bool.false_eq_true, if_false, hrest]
    by_cases hmem : (UserName, Password) ∈ rest
    · simp [hmem]
    · by_cases heq : u = UserName ∧ p = Password
      · obtain ⟨rfl, rfl⟩ := heq
        simp
      · have hne : ¬ (UserName = u ∧ Password = p) := fun h => heq ⟨h.1.symm, h.2.symm⟩
        simp [hmem, heq, hne]

/-- On a credential file of well-formed lines, with more fuel than it has lines, `Login`
returns, and it succeeds exactly when the pair typed is one of the pairs. -/
theorem Login_credentialText (fuel : Nat) (creds : List (List Char × List Char))
    (UserName Password : List Char) (hcreds : ∀ c ∈ creds, isToken c.1 ∧ isToken c.2)
    (h : creds.length < fuel) :
    Log_Sign.Login fuel (some (credentialText creds)) UserName Password
      = some (if (UserName, Password) ∈ creds then LoginOutcome.successful
          else LoginOutcome.invalidCredentials) := by
  have hloop := loginLoop_credentialText UserName Password creds fuel [] [] [] 0 hcreds
    (by simp) h
  simp only [List.nil_append] at hloop
  simp only [Log_Sign.Login, TextStream.openIn, hloop]
  by_cases hmem : (UserName, Password) ∈ creds <;> simp [hmem]

theorem linesFrom_line (l : List Char) (hl : LF ∉ l) :
    ∀ (cur rest : List Char), linesFrom cur (l ++ LF :: rest) = (cur ++ l) :: linesFrom [] rest := by
  induction l with
  | nil => intro cur rest; simp [linesFrom]
  | cons c l ih =>
    intro cur rest
    have hc : c ≠ LF := fun h => hl (h ▸ List.mem_cons_self _ _)
    have hl2 : LF ∉ l := fun h => hl (List.mem_cons_of_mem _ h)
    have h := ih hl2 (cur ++ [c]) rest
    simp only [List.cons_append, linesFrom, hc, if_false]
    simpa using h

theorem isToken_not_mem (t : List Char) (ht : isToken t) (w : Char) (hw : isspace w = true) :
    w ∉ t := by
  intro hmem
  have := ht.2 w hmem
  rw [hw] at this
  exact Bool.noConfusion this

theorem lines_credentialText (creds : List (List Char × List Char))
    (hcreds : ∀ c ∈ creds, isToken c.1 ∧ isToken c.2) :
    lines (credentialText creds) = creds.map (fun c => c.1 ++ SP :: c.2) := by
  induction creds with
  | nil => rfl
  | cons c rest ih =>
    obtain ⟨u, p⟩ := c
    obtain ⟨hu, hp⟩ := hcreds (u, p) (List.mem_cons_self _ _)
    have hlf : isspace LF = true := by decide
    have hline : LF ∉ u ++ SP :: p := by
      intro hmem
      rcases List.mem_append.mp hmem with h | h
      · exact isToken_not_mem u hu LF hlf h
      · rcases List.mem_cons.mp h with h | h
        · exact absurd h (by decide)
        · exact isToken_not_mem p hp LF hlf h
    have h := linesFrom_line (u ++ SP :: p) hline [] (credentialText rest)
    have ih2 := ih (fun c hc => hcreds c (List.mem_cons_of_mem _ hc))
    unfold lines at ih2 ⊢
    simp only [credentialText, List.map_cons]
    simp only [List.append_assoc, List.cons_append, List.nil_append] at h ⊢
    rw [h, ih2]

/-- A line made of two tokens holds exactly one pair. -/
theorem lineHolds_token_line (u p UserName Password : List Char) (hu : isToken u)
    (hp : isToken p) :
    lineHolds (u ++ SP :: p) UserName Password ↔ (UserName, Password) = (u, p) := by
  have hsp : isspace SP = true := by decide
  have hu2 := isToken_not_mem u hu SP hsp
  have hp2 := isToken_not_mem p hp SP hsp
  unfold lineHolds
  constructor
  · intro h
    rcases List.append_eq_append_iff.mp h with ⟨a, ha, hb⟩ | ⟨a, ha, hb⟩
    · cases a with
      | nil =>
        simp only [List.nil_append, List.cons.injEq, true_and] at hb
        simp only [List.append_nil] at ha
        rw [ha, hb]
      | cons x a =>
        simp only [List.cons_append, List.cons.injEq] at hb
        exact absurd (hb.2 ▸ (by simp : SP ∈ a ++ SP :: Password)) hp2
    · cases a with
      | nil =>
        simp only [List.nil_append, List.cons.injEq, true_and] at hb
        simp only [List.append_nil] at ha
        rw [ha, hb]
      | cons x a =>
        simp only [List.cons_append, List.cons.injEq] at hb
        exact absurd (ha ▸ (by simp [hb.1] : SP ∈ UserName ++ x :: a)) hu2
  · intro h
    cases h
    rfl

theorem lineHolds_credentialText (creds : List (List Char × List Char))
    (UserName Password : List Char) (hcreds : ∀ c ∈ creds, isToken c.1 ∧ isToken c.2) :
    (∃ line ∈ lines (credentialText creds), lineHolds line UserName Password)
      ↔ (UserName, Password) ∈ creds := by
  rw [lines_credentialText creds hcreds]
  constructor
  · rintro ⟨line, hline, hholds⟩
    obtain ⟨c, hc, rfl⟩ := List.mem_map.mp hline
    obtain ⟨hu, hp⟩ := hcreds c hc
    have := (lineHolds_token_line c.1 c.2 UserName Password hu hp).mp hholds
    rw [this]
    exact hc
  · intro hmem
    obtain ⟨hu, hp⟩ := hcreds _ hmem
    exact ⟨UserName ++ SP :: Password, List.mem_map.mpr ⟨_, hmem, rfl⟩, rfl⟩

/-! ## Delete -/

/-- C2: for every store file of whole records and every code, with more fuel than the file
has records, `deleteRecord` returns and the store file then holds exactly the records
whose code differs from the code entered, in their original order, each one as it was. -/
theorem deleteRecord_keeps_others (fuel : Nat) (self : Employee) (ecode : Int)
    (records : List Employee) (tmp : Option FileData) (h : records.length < fuel) :
    (Admin.deleteRecord fuel self ecode
        { employeeDat := some (FileData.whole records), tempDat := tmp }).map
      (fun r => r.1.employeeDat)
      = some (some (FileData.whole (records.filter (fun e => e.employeeCode ≠ ecode)))) := by
  obtain ⟨self1, h1⟩ := deleteRecord_present fuel self ecode (FileData.whole records) tmp h
  rw [h1]
  rfl

/-- Deleting code 2 from the file of `alice`, `carol`, `bob` leaves `alice`, `bob`. -/
theorem deleteRecord_keeps_others_witness :
    (Admin.deleteRecord 4 carol 2
        { employeeDat := some (FileData.whole [alice, carol, bob]), tempDat := none }).map
      (fun r => r.1.employeeDat)
      = some (some (FileData.whole [alice, bob])) :=
  deleteRecord_keeps_others 4 carol 2 [alice, carol, bob] none (by decide)

/-- C5 as stated fails: `alice` and `bob` both have code 1, and deleting code 1 leaves
no record, not the one record "the number before minus 1" asks for. -/
theorem deleteRecord_count_counterexample :
    alice.employeeCode = 1 ∧ bob.employeeCode = 1 ∧
    (Admin.deleteRecord 3 carol 1
        { employeeDat := some (FileData.whole [alice, bob]), tempDat := none }).map
      (fun r => recordCount r.1) = some 0 ∧
    (Admin.deleteRecord 3 carol 1
        { employeeDat := some (FileData.whole [alice, bob]), tempDat := none }).map
      (fun r => recordCount r.1) ≠ some ([alice, bob].length - 1) := by
  decide

/-- C5, amended: for every store file of whole records and every code, with more fuel than
the file has records, `deleteRecord` returns and removes every record with that code:
the number of records afterwards is the number before minus the number of records
with the code; so it is one less when exactly one record had the code and the same
when none had. -/
theorem deleteRecord_count (fuel : Nat) (self : Employee) (ecode : Int)
    (records : List Employee) (tmp : Option FileData) (h : records.length < fuel) :
    (Admin.deleteRecord fuel self ecode
        { employeeDat := some (FileData.whole records), tempDat := tmp }).map
      (fun r => recordCount r.1)
      = some (records.length - records.countP (fun e => e.employeeCode = ecode)) ∧
    (records.countP (fun e => e.employeeCode = ecode) = 1 →
      (Admin.deleteRecord fuel self ecode
          { employeeDat := some (FileData.whole records), tempDat := tmp }).map
        (fun r => recordCount r.1) = some (records.length - 1)) ∧
    ((∀ e ∈ records, e.employeeCode ≠ ecode) →
      (Admin.deleteRecord fuel self ecode
          { employeeDat := some (FileData.whole records), tempDat := tmp }).map
        (fun r => recordCount r.1) = some records.length) := by
  obtain ⟨self1, h1⟩ := deleteRecord_present fuel self ecode (FileData.whole records) tmp h
  have hcount : (records.filter (fun e => e.employeeCode ≠ ecode)).length
      = records.length - records.countP (fun e => e.employeeCode = ecode) := by
    have h2 := List.length_eq_countP_add_countP (fun e => decide (e.employeeCode = ecode)) records
    rw [← List.countP_eq_length_filter]
    have h3 : List.countP (fun e => decide (e.employeeCode ≠ ecode)) records
        = List.countP (fun a => ¬ (decide (a.employeeCode = ecode)) = true) records := by
      congr 1
      funext e
      simp
    omega
  have hmain : (Admin.deleteRecord fuel self ecode
        { employeeDat := some (FileData.whole records), tempDat := tmp }).map
      (fun r => recordCount r.1)
      = some (records.length - records.countP (fun e => e.employeeCode = ecode)) := by
    rw [h1, ← hcount]
    rfl
  refine ⟨hmain, ?_, ?_⟩
  · intro hone
    rw [hmain, hone]
  · intro hnone
    have hzero : records.countP (fun e => e.employeeCode = ecode) = 0 := by
      rw [List.countP_eq_zero]
      intro e he
      simpa using hnone e he
    rw [hmain, hzero]
    rfl

/-- Deleting code 2 from the file of `alice`, `carol`, `bob` leaves two records. -/
theorem deleteRecord_count_witness :
    (Admin.deleteRecord 4 carol 2
        { employeeDat := some (FileData.whole [alice, carol, bob]), tempDat := none }).map
      (fun r => recordCount r.1) = some 2 :=
  (deleteRecord_count 4 carol 2 [alice, carol, bob] none (by decide)).1

/-- C6: for every store file that exists and every code, with more fuel than the file has
whole records, a first `deleteRecord` returns, a search for the code then prints
"Record Not Found", and a second `deleteRecord` returns and leaves the store file
as the first one left it. -/
theorem deleteRecord_twice (fuel : Nat) (self obj : Employee) (ecode : Int) (f : FileData)
    (tmp : Option FileData) (h : f.records.length < fuel) :
    ∃ disk1 self1,
      Admin.deleteRecord fuel self ecode { employeeDat := some f, tempDat := tmp }
        = some (disk1, self1) ∧
      Admin.searchRecord fuel obj ecode disk1.employeeDat = some [Printed.recordNotFound] ∧
      ∃ disk2 self2,
        Admin.deleteRecord fuel self1 ecode disk1 = some (disk2, self2) ∧
        disk2.employeeDat = disk1.employeeDat := by
  obtain ⟨self1, h1⟩ := deleteRecord_present fuel self ecode f tmp h
  have hlen : (f.records.filter (fun e => e.employeeCode ≠ ecode)).length < fuel :=
    Nat.lt_of_le_of_lt (List.length_filter_le _ _) h
  obtain ⟨self2, h2⟩ := deleteRecord_present fuel self1 ecode
    (FileData.whole (f.records.filter (fun e => e.employeeCode ≠ ecode)))
    (some (FileData.whole (f.records.filter (fun e => e.employeeCode ≠ ecode)))) hlen
  have hfind : (f.records.filter (fun e => e.employeeCode ≠ ecode)).find?
      (fun e => e.employeeCode = ecode) = none := by
    rw [List.find?_eq_none]
    intro e he
    simpa using (List.mem_filter.mp he).2
  refine ⟨_, self1, h1, ?_, _, self2, h2, ?_⟩
  · have hs := searchRecord_present fuel obj ecode
      (FileData.whole (f.records.filter (fun e => e.employeeCode ≠ ecode))) hlen
    simp only [FileData.whole] at hs hfind ⊢
    rw [hs, hfind]
  · simp [FileData.whole]

/-- The double delete of C6 on the file of `alice`, `carol`, `bob` with code 1. -/
theorem deleteRecord_twice_witness :
    ∃ disk1 self1,
      Admin.deleteRecord 4 carol 1
          { employeeDat := some (FileData.whole [alice, carol, bob]), tempDat := none }
        = some (disk1, self1) ∧
      Admin.searchRecord 4 carol 1 disk1.employeeDat = some [Printed.recordNotFound] ∧
      ∃ disk2 self2,
        Admin.deleteRecord 4 self1 1 disk1 = some (disk2, self2) ∧
        disk2.employeeDat = disk1.employeeDat :=
  deleteRecord_twice 4 carol carol 1 (FileData.whole [alice, carol, bob]) none (by decide)

/-! ## Search -/

/-- C3 as stated fails on a store file that does not exist: the search prints nothing,
so it does not print "Record Not Found" although no record has the code. -/
theorem searchRecord_absent_counterexample :
    Admin.searchRecord 1 carol 1 none = some [] ∧
    Admin.searchRecord 1 carol 1 none ≠ some [Printed.recordNotFound] := by
  decide

/-- C3, amended: for every store file of whole records, empty or not, and every code, with
more fuel than the file has records, `searchRecord` returns; it prints the first record in
file order that has the code when there is one and "Record Not Found" otherwise, so
it prints "Record Not Found" exactly when no record has the code, and that is what it
prints on an empty file.  When the store file does not exist it prints nothing. -/
theorem searchRecord_reports (fuel : Nat) (obj : Employee) (ecode : Int)
    (records : List Employee) (h : records.length < fuel) :
    Admin.searchRecord fuel obj ecode (some (FileData.whole records))
      = some (match records.find? (fun e => e.employeeCode = ecode) with
          | some e => [Printed.record e]
          | none => [Printed.recordNotFound]) ∧
    (Admin.searchRecord fuel obj ecode (some (FileData.whole records))
        = some [Printed.recordNotFound] ↔ ∀ e ∈ records, e.employeeCode ≠ ecode) ∧
    Admin.searchRecord fuel obj ecode (some (FileData.whole [])) = some [Printed.recordNotFound] ∧
    Admin.searchRecord fuel obj ecode none = some [] := by
  have hs := searchRecord_present fuel obj ecode (FileData.whole records) h
  have hfuel : 0 < fuel := Nat.lt_of_le_of_lt (Nat.zero_le _) h
  have he := searchRecord_present fuel obj ecode (FileData.whole []) hfuel
  simp only [FileData.whole] at hs he ⊢
  refine ⟨hs, ?_, he, by simp [Admin.searchRecord, IFStream.openIn, IFStream.fail]⟩
  rw [hs]
  cases hfind : records.find? (fun e => e.employeeCode = ecode) with
  | none =>
    simp only [true_iff]
    intro e he
    simpa using (List.find?_eq_none.mp hfind) e he
  | some e =>
    have hmem := List.mem_of_find?_eq_some hfind
    have hcode := List.find?_some hfind
    simp only [Option.some.injEq, List.cons.injEq, and_true, reduceCtorEq, false_iff,
      not_forall]
    exact ⟨e, hmem, by simpa using hcode⟩

/-- A search for code 1 in the file of `carol`, `alice`, `bob` prints `alice`, the first
of the two records with that code. -/
theorem searchRecord_reports_witness :
    Admin.searchRecord 4 carol 1 (some (FileData.whole [carol, alice, bob]))
      = some [Printed.record alice] :=
  (searchRecord_reports 4 carol 1 [carol, alice, bob] (by decide)).1

/-! ## Add, then search -/

/-- C4 as stated fails when the store already holds a record with the code: after `bob` is
added to a file holding `alice`, who has the same code, the search prints `alice`. -/
theorem add_search_counterexample :
    Admin.searchRecord 3 carol bob.employeeCode
        (some (FileData.whole (Admin.addEmployee bob (some [alice]))))
      = some [Printed.record alice] ∧
    alice ≠ bob := by
  decide

/-- C4, amended: for every store, a file of whole records or no file, in which no record has
the code of `r`, after `addEmployee` has appended `r` a search for that code, with more
fuel than the file has records, returns and prints `r` itself, equal in every field. -/
theorem add_search_roundtrip (fuel : Nat) (obj r : Employee) (store : Option (List Employee))
    (hnew : ∀ e ∈ store.getD [], e.employeeCode ≠ r.employeeCode)
    (h : (Admin.addEmployee r store).length < fuel) :
    Admin.searchRecord fuel obj r.employeeCode
        (some (FileData.whole (Admin.addEmployee r store)))
      = some [Printed.record r] := by
  have hs := searchRecord_present fuel obj r.employeeCode
    (FileData.whole (Admin.addEmployee r store)) h
  rw [hs]
  have hfind : (Admin.addEmployee r store).find? (fun e => e.employeeCode = r.employeeCode)
      = some r := by
    cases store with
    | none => simp [Admin.addEmployee]
    | some records =>
      have hnone : records.find? (fun e => decide (e.employeeCode = r.employeeCode)) = none := by
        rw [List.find?_eq_none]
        intro e he
        simpa using hnew e he
      simp [Admin.addEmployee, List.find?_append, hnone]
  simp only [FileData.whole] at hfind ⊢
  rw [hfind]

/-- The round trip of C4: `carol` added to the file of `alice` and `bob`, then searched. -/
theorem add_search_roundtrip_witness :
    Admin.searchRecord 4 alice carol.employeeCode
        (some (FileData.whole (Admin.addEmployee carol (some [alice, bob]))))
      = some [Printed.record carol] :=
  add_search_roundtrip 4 alice carol (some [alice, bob])
    (by decide) (by decide)

/-! ## List -/

/-- C1: for every sequence of records in the store file, with more fuel than the file has
records, `list` returns and the records it prints are the stable sort of that sequence by
grade, largest first: a rearrangement of the records read, with grades that never
increase along the output, and with the records of each grade in their file order. -/
theorem list_sorted_stable (fuel : Nat) (obj : Employee) (records : List Employee)
    (h : records.length < fuel) :
    (Admin.list fuel obj (some (FileData.whole records))).map printedRecords
      = some (Admin.sortByGrade records) ∧
    (Admin.sortByGrade records).Perm records ∧
    (Admin.sortByGrade records).Pairwise (fun a b => b.grade ≤ a.grade) ∧
    ∀ g : Int, (Admin.sortByGrade records).filter (fun e => e.grade = g)
      = records.filter (fun e => e.grade = g) := by
  refine ⟨?_, sortByGrade_spec records⟩
  rw [list_present fuel obj (FileData.whole records) h]
  by_cases hnil : records = []
  · subst hnil
    rfl
  · simp only [FileData.whole, hnil, if_false, Option.map_some', printedRecords_map]

/-- Records with grades 3, 1, 3, 2 in file order are printed with grades 3, 3, 2, 1, the
grade-3 record that comes first in the file first. -/
theorem list_sorted_stable_witness :
    (Admin.list 5 carol (some (FileData.whole [alice, carol, dave, bob]))).map printedRecords
      = some [alice, dave, bob, carol] :=
  (list_sorted_stable 5 carol [alice, carol, dave, bob] (by decide)).1

/-! ## Login and Signup -/

/-- C9 as stated fails on a file whose two lines are "alice" and "secret": the check pairs
strings across the line break and succeeds, although no line holds the pair. -/
theorem Login_line_counterexample :
    Log_Sign.Login 2 (some (userAlice ++ LF :: (passSecret ++ [LF]))) userAlice passSecret
      = some LoginOutcome.successful ∧
    ¬ ∃ line ∈ lines (userAlice ++ LF :: (passSecret ++ [LF])),
        lineHolds line userAlice passSecret := by
  decide

/-- C9, amended: for every credential file made of lines "username password" whose user
names and passwords are not empty and have no whitespace, and every pair typed, with more
fuel than the file has lines, `Login` returns; it succeeds exactly when some line of
the file holds exactly the pair typed and ends with "Invalid credentials" exactly
when no line does, as it does when the file is empty or does not exist. -/
theorem Login_iff_line (fuel : Nat) (creds : List (List Char × List Char))
    (UserName Password : List Char) (hcreds : ∀ c ∈ creds, isToken c.1 ∧ isToken c.2)
    (h : creds.length < fuel) :
    (Log_Sign.Login fuel (some (credentialText creds)) UserName Password
        = some LoginOutcome.successful
      ↔ ∃ line ∈ lines (credentialText creds), lineHolds line UserName Password) ∧
    (Log_Sign.Login fuel (some (credentialText creds)) UserName Password
        = some LoginOutcome.invalidCredentials
      ↔ ¬ ∃ line ∈ lines (credentialText creds), lineHolds line UserName Password) ∧
    Log_Sign.Login fuel (some []) UserName Password = some LoginOutcome.invalidCredentials ∧
    Log_Sign.Login fuel none UserName Password = some LoginOutcome.invalidCredentials := by
  have hlogin := Login_credentialText fuel creds UserName Password hcreds h
  have hline := lineHolds_credentialText creds UserName Password hcreds
  have hfuel : 0 < fuel := Nat.lt_of_le_of_lt (Nat.zero_le _) h
  have hempty := Login_credentialText fuel [] UserName Password (by simp) hfuel
  obtain ⟨n, rfl⟩ : ∃ n, fuel = n + 1 := ⟨fuel - 1, by omega⟩
  refine ⟨?_, ?_, by simpa [credentialText] using hempty, ?_⟩
  · rw [hlogin, hline]
    by_cases hmem : (UserName, Password) ∈ creds <;> simp [hmem]
  · rw [hlogin, hline]
    by_cases hmem : (UserName, Password) ∈ creds <;> simp [hmem]
  · simp [Log_Sign.Login, Log_Sign.loginLoop, TextStream.openIn, TextStream.extract]

/-- On the file with the lines "bob wrong" and "alice secret", the pair "alice", "secret"
logs in. -/
theorem Login_iff_line_witness :
    Log_Sign.Login 3 (some (credentialText [(userBob, passWrong), (userAlice, passSecret)]))
      userAlice passSecret = some LoginOutcome.successful :=
  (Login_iff_line 3 [(userBob, passWrong), (userAlice, passSecret)] userAlice passSecret
    (by decide) (by decide)).1.mpr (by decide)

/-- C10 fails in the code for a password with a space: after `Signup` has stored "alice"
with the password "my secret" in a new file, `Login` rejects "alice" with "my secret"
and accepts "alice" with "my". -/
theorem Signup_Login_space_in_password :
    Log_Sign.Login 2 (some (Log_Sign.Signup none userAlice passMySecret)) userAlice passMySecret
      = some LoginOutcome.invalidCredentials ∧
    Log_Sign.Login 2 (some (Log_Sign.Signup none userAlice passMySecret)) userAlice passMy
      = some LoginOutcome.successful := by
  decide

/-- The credential scenario of the specification: after "alice" has signed up with "secret",
that pair logs in, and "alice" with "wrong" and "bob" with "secret" do not. -/
theorem Signup_Login_examples :
    Log_Sign.Login 2 (some (Log_Sign.Signup none userAlice passSecret)) userAlice passSecret
      = some LoginOutcome.successful ∧
    Log_Sign.Login 2 (some (Log_Sign.Signup none userAlice passSecret)) userAlice passWrong
      = some LoginOutcome.invalidCredentials ∧
    Log_Sign.Login 2 (some (Log_Sign.Signup none userAlice passSecret)) userBob passSecret
      = some LoginOutcome.invalidCredentials := by
  decide

/-- Where the round trip of C10 does hold: when user name and password are not empty and
have no whitespace, then after a `Signup` on a file that is empty or does not exist,
`Login` with at least two units of fuel succeeds for that pair and for no other. -/
theorem Signup_Login_tokens (fuel : Nat) (u p UserName Password : List Char)
    (hu : isToken u) (hp : isToken p) (h : 1 < fuel) :
    (Log_Sign.Login fuel (some (Log_Sign.Signup none u p)) UserName Password
        = some (if UserName = u ∧ Password = p then LoginOutcome.successful
            else LoginOutcome.invalidCredentials)) ∧
    Log_Sign.Signup (some []) u p = Log_Sign.Signup none u p := by
  have hlogin := Login_credentialText fuel [(u, p)] UserName Password
    (by simpa using ⟨hu, hp⟩) (by simpa using h)
  have htext : Log_Sign.Signup none u p = credentialText [(u, p)] := by
    simp [Log_Sign.Signup, credentialText]
  refine ⟨?_, by simp [Log_Sign.Signup]⟩
  rw [htext, hlogin]
  by_cases heq : UserName = u ∧ Password = p
  · obtain ⟨rfl, rfl⟩ := heq
    simp
  · have hne : ¬ (UserName, Password) = (u, p) := fun h => heq (by cases h; exact ⟨rfl, rfl⟩)
    simp [heq, hne]

/-! ## The setters of `Income`, `SetEmployeeCode` and `SetGrade` -/

/-- C11 fails in the code when 0 is typed at the prompt: each of the eight setters, called
with the argument -5 and then given 0, stores 0, which is not greater than 0. -/
theorem setters_store_zero :
    (Income.new.SetBaseSalary 1 (CFloat.finite (-5)) (zeroTyped Rat)).map
      (fun r => r.1.baseSalary) = some (CFloat.finite 0) ∧
    (Income.new.SetLoan 1 (CFloat.finite (-5)) (zeroTyped Rat)).map
      (fun r => r.1.loan) = some (CFloat.finite 0) ∧
    (Income.new.SetBonus 1 (CFloat.finite (-5)) (zeroTyped Rat)).map
      (fun r => r.1.bonus) = some (CFloat.finite 0) ∧
    (Income.new.SetTax 1 (CFloat.finite (-5)) (zeroTyped Rat)).map
      (fun r => r.1.tax) = some (CFloat.finite 0) ∧
    (Income.new.SetMedicalAllowance 1 (CFloat.finite (-5)) (zeroTyped Rat)).map
      (fun r => r.1.medicalAllowance) = some (CFloat.finite 0) ∧
    (Income.new.SetTravelAllowance 1 (CFloat.finite (-5)) (zeroTyped Rat)).map
      (fun r => r.1.travelAllowance) = some (CFloat.finite 0) ∧
    (alice.SetEmployeeCode 1 (-5) (zeroTyped Int)).map (fun r => r.1.employeeCode) = some 0 ∧
    (alice.SetGrade 1 (-5) (zeroTyped Int)).map (fun r => r.1.grade) = some 0 ∧
    (CFloat.finite 0).gt0 = false ∧ ¬ ((0 : Int) > 0) := by
  decide

theorem CFloat.ge0_of_not_lt0 (v : CFloat) (hnan : v ≠ CFloat.nan) (h : v.lt0 = false) :
    v.ge0 = true := by
  cases v with
  | finite q =>
    simp only [CFloat.lt0, decide_eq_false_iff_not, not_lt] at h
    simpa [CFloat.ge0] using h
  | posInf => rfl
  | negInf => simp [CFloat.lt0] at h
  | nan => exact absurd rfl hnan

theorem CFloat.not_lt0_of_gt0 (v : CFloat) (h : v.gt0 = true) :
    v.lt0 = false ∧ v ≠ CFloat.nan := by
  cases v with
  | finite q =>
    simp only [CFloat.gt0, decide_eq_true_eq] at h
    exact ⟨by simpa [CFloat.lt0] using le_of_lt h, by simp⟩
  | posInf => exact ⟨rfl, by simp⟩
  | negInf => simp [CFloat.gt0] at h
  | nan => simp [CFloat.gt0] at h

/-- What a read leaves in `v` is NaN only when `v` was NaN before. -/
theorem Cin.extract_float_nan (cin : Cin Rat) (v : CFloat)
    (h : (cin.extract CFloat.finite (CFloat.finite 0) v).2 = CFloat.nan) : v = CFloat.nan := by
  unfold Cin.extract at h
  split at h
  · exact h
  · split at h
    · exact h
    · simp at h
    · simp at h

/-- The loop of the setters is left only with a value that is not negative, and with NaN
only when it was entered with NaN. -/
theorem Income.reenter_spec :
    ∀ (fuel : Nat) (cin cin1 : Cin Rat) (v v1 : CFloat),
      Income.reenter fuel cin v = some (cin1, v1) →
      v1.lt0 = false ∧ (v ≠ CFloat.nan → v1 ≠ CFloat.nan) := by
  intro fuel
  induction fuel with
  | zero => intro cin cin1 v v1 h; simp [Income.reenter] at h
  | succ n ih =>
    intro cin cin1 v v1 h
    simp only [Income.reenter] at h
    by_cases hlt : (cin.extract CFloat.finite (CFloat.finite 0) v).2.lt0 = true
    · simp only [hlt, if_true] at h
      obtain ⟨h1, h2⟩ := ih _ _ _ _ h
      exact ⟨h1, fun hv => h2 (fun hx => hv (Cin.extract_float_nan cin v hx))⟩
    · simp only [hlt, Bool.false_eq_true, if_false, Option.some.injEq, Prod.mk.injEq] at h
      obtain ⟨-, rfl⟩ := h
      exact ⟨by simpa using hlt, fun hv hx => hv (Cin.extract_float_nan cin v hx)⟩

/-- The value a setter of `Income` assigns is not negative, and it is NaN only when the
argument is NaN. -/
theorem Income.stored_spec (fuel : Nat) (v v1 : CFloat) (cin cin1 : Cin Rat)
    (h : Income.stored fuel v cin = some (cin1, v1)) :
    v1.lt0 = false ∧ (v ≠ CFloat.nan → v1.ge0 = true) := by
  unfold Income.stored at h
  by_cases hgt : v.gt0 = true
  · simp only [hgt, if_true, Option.some.injEq, Prod.mk.injEq] at h
    obtain ⟨-, rfl⟩ := h
    obtain ⟨h1, h2⟩ := CFloat.not_lt0_of_gt0 v hgt
    exact ⟨h1, fun _ => CFloat.ge0_of_not_lt0 v h2 h1⟩
  · simp only [hgt, Bool.false_eq_true, if_false] at h
    obtain ⟨h1, h2⟩ := Income.reenter_spec fuel cin cin1 v v1 h
    exact ⟨h1, fun hv => CFloat.ge0_of_not_lt0 v1 (h2 hv) h1⟩

/-- A call that returns keeps both properties of the fields. -/
theorem Income.call_spec (self inc : Income) (c : SetterCall)
    (h : Income.call self c = some inc) :
    (self.noneLt0 → inc.noneLt0) ∧ (c.value ≠ CFloat.nan → self.allGe0 → inc.allGe0) := by
  obtain ⟨setter, v, cin, fuel⟩ := c
  cases hst : Income.stored fuel v cin with
  | none =>
    cases setter <;>
      simp [Income.call, Income.SetBaseSalary, Income.SetLoan, Income.SetBonus, Income.SetTax,
        Income.SetMedicalAllowance, Income.SetTravelAllowance, hst] at h
  | some res =>
    obtain ⟨cin1, v1⟩ := res
    obtain ⟨h1, h2⟩ := Income.stored_spec fuel v v1 cin cin1 hst
    cases setter <;>
      (simp only [Income.call, Income.SetBaseSalary, Income.SetLoan, Income.SetBonus,
        Income.SetTax, Income.SetMedicalAllowance, Income.SetTravelAllowance, hst,
        Option.map_some', Option.some.injEq] at h
       subst h
       exact ⟨fun hs => by simp only [Income.noneLt0] at hs ⊢; simp [hs, h1],
         fun hv hs => by simp only [Income.allGe0] at hs ⊢; simp [hs, h2 hv]⟩)

theorem Income.calls_spec (calls : List SetterCall) :
    ∀ (self inc : Income), Income.calls self calls = some inc →
      (self.noneLt0 → inc.noneLt0) ∧
      ((∀ c ∈ calls, c.value ≠ CFloat.nan) → self.allGe0 → inc.allGe0) := by
  induction calls with
  | nil =>
    intro self inc h
    simp only [Income.calls, Option.some.injEq] at h
    subst h
    exact ⟨id, fun _ => id⟩
  | cons c rest ih =>
    intro self inc h
    simp only [Income.calls] at h
    cases hc : Income.call self c with
    | none => simp [hc] at h
    | some self1 =>
      simp only [hc] at h
      obtain ⟨h1, h2⟩ := Income.call_spec self self1 c hc
      obtain ⟨h3, h4⟩ := ih self1 inc h
      exact ⟨fun hs => h3 (h1 hs), fun hv hs =>
        h4 (fun d hd => hv d (List.mem_cons_of_mem _ hd))
          (h2 (hv c (List.mem_cons_self _ _)) hs)⟩

/-- C12 as stated fails for the argument NaN: `SetBaseSalary(NaN)` on the object of the
constructor, with the console at the end of its input, returns and stores NaN, which
is not `>= 0`. -/
theorem Income_nan_counterexample :
    Income.calls Income.new
        [{ setter := IncomeSetter.SetBaseSalary, value := CFloat.nan,
           cin := nothingTyped Rat, fuel := 1 }]
      = some { Income.new with baseSalary := CFloat.nan } ∧
    CFloat.nan.ge0 = false := by
  decide

/-- C12, amended: in every `Income` value that a sequence of setter calls, each of them
returning, makes of the object of the constructor, with any arguments and any values
typed, no field is negative; and all six fields are `>= 0` when no argument is NaN. -/
theorem Income_fields_nonnegative (calls : List SetterCall) (inc : Income)
    (h : Income.calls Income.new calls = some inc) :
    inc.noneLt0 ∧ ((∀ c ∈ calls, c.value ≠ CFloat.nan) → inc.allGe0) := by
  obtain ⟨h1, h2⟩ := Income.calls_spec calls Income.new inc h
  have hnew1 : Income.new.noneLt0 := by unfold Income.noneLt0; decide
  have hnew2 : Income.new.allGe0 := by unfold Income.allGe0; decide
  exact ⟨h1 hnew1, fun hv => h2 hv hnew2⟩

/-- Two calls on the object of the constructor: `SetBaseSalary(7)`, and `SetLoan(-5)` with
-2 and then 3 typed at its prompt; the object then has the base salary 7 and the loan 3. -/
theorem Income_fields_nonnegative_witness :
    Income.calls Income.new
        [{ setter := IncomeSetter.SetBaseSalary, value := CFloat.finite 7,
           cin := nothingTyped Rat, fuel := 1 },
         { setter := IncomeSetter.SetLoan, value := CFloat.finite (-5),
           cin := { pending := [some (-2), some 3], failbit := false }, fuel := 2 }]
      = some { Income.new with baseSalary := CFloat.finite 7, loan := CFloat.finite 3 } ∧
    ({ Income.new with baseSalary := CFloat.finite 7, loan := CFloat.finite 3 } : Income).allGe0 :=
  have h : Income.calls Income.new
        [{ setter := IncomeSetter.SetBaseSalary, value := CFloat.finite 7,
           cin := nothingTyped Rat, fuel := 1 },
         { setter := IncomeSetter.SetLoan, value := CFloat.finite (-5),
           cin := { pending := [some (-2), some 3], failbit := false }, fuel := 2 }]
      = some { Income.new with baseSalary := CFloat.finite 7, loan := CFloat.finite 3 } := by
    decide
  ⟨h, (Income_fields_nonnegative _ _ h).2 (by decide)⟩

/-! ## Termination of `deleteRecord` -/

theorem deleteCopyLoop_absent (ecode : Int) :
    ∀ (fuel : Nat) (self : Employee) (temp : List Employee),
      Admin.deleteCopyLoop fuel ecode (IFStream.openIn none) self temp = none := by
  intro fuel
  induction fuel with
  | zero => intro self temp; rfl
  | succ n ih =>
    intro self temp
    have h1 := ih self temp
    have h2 := ih self (temp ++ [self])
    simp only [IFStream.openIn] at h1 h2
    simp only [Admin.deleteCopyLoop, IFStream.openIn, IFStream.eof, IFStream.read,
      Bool.false_eq_true, if_false, Bool.or_true, if_true, h1, h2, ite_self]

/-- C13 fails in the code when `EMPLOYEE.DAT` does not exist: whatever the fuel, the object
and the code entered, `deleteRecord` does not return, because the first copy loop
is never left. -/
theorem deleteRecord_absent_never_returns (fuel : Nat) (self : Employee) (ecode : Int)
    (tmp : Option FileData) :
    Admin.deleteRecord fuel self ecode { employeeDat := none, tempDat := tmp } = none := by
  simp only [Admin.deleteRecord, deleteCopyLoop_absent ecode fuel self []]

/-! ## The number of login attempts -/

theorem Login_never_gaveUp (fuel : Nat) (userData : Option (List Char))
    (UserName Password : List Char) :
    Log_Sign.Login fuel userData UserName Password ≠ some LoginOutcome.gaveUp := by
  intro h
  simp only [Log_Sign.Login] at h
  split at h
  · exact Option.noConfusion h
  · split_ifs at h with h1 h2
    · exact LoginOutcome.noConfusion (Option.some.inj h)
    · exact absurd h2 (by decide)
    · exact LoginOutcome.noConfusion (Option.some.inj h)

theorem mainMenu_wrongRounds (n : Nat) :
    Menu.mainMenu 2 (some (Log_Sign.Signup none userAlice passSecret))
        (List.replicate n wrongRound)
      = some (List.replicate n (MenuEvent.login LoginOutcome.invalidCredentials)) := by
  induction n with
  | zero => rfl
  | succ n ih =>
    have hlogin : Log_Sign.Login 2 (some (Log_Sign.Signup none userAlice passSecret))
        wrongRound.UserName wrongRound.Password = some LoginOutcome.invalidCredentials := by
      decide
    have hchoice : wrongRound.choice2 = 1 := rfl
    simp only [List.replicate_succ, Menu.mainMenu, hchoice, if_true, hlogin,
      LoginOutcome.result, Bool.false_eq_true, if_false, ih, Option.map_some']

/-- C14 fails in the code: `Login` never ends in its branch `temp > 3`, whatever the
file and the pair typed, and `mainMenu` goes on offering logins: with "alice" signed up
with "secret", any number of passes with the wrong password are each answered by
a login attempt that ends with "Invalid credentials", the fourth one included. -/
theorem Login_attempts_unbounded :
    (∀ (fuel : Nat) (userData : Option (List Char)) (UserName Password : List Char),
      Log_Sign.Login fuel userData UserName Password ≠ some LoginOutcome.gaveUp) ∧
    (∀ n : Nat,
      Menu.mainMenu 2 (some (Log_Sign.Signup none userAlice passSecret))
          (List.replicate n wrongRound)
        = some (List.replicate n (MenuEvent.login LoginOutcome.invalidCredentials))) ∧
    Menu.mainMenu 2 (some (Log_Sign.Signup none userAlice passSecret))
        [wrongRound, wrongRound, wrongRound, wrongRound]
      = some [MenuEvent.login LoginOutcome.invalidCredentials,
          MenuEvent.login LoginOutcome.invalidCredentials,
          MenuEvent.login LoginOutcome.invalidCredentials,
          MenuEvent.login LoginOutcome.invalidCredentials] :=
  ⟨Login_never_gaveUp, mainMenu_wrongRounds, mainMenu_wrongRounds 4⟩
